import Mathlib

/-!
Verification development for the SNMP MIB instrumentation controller
(pysnmp/smi/instrum.py): a shallow embedding of the transactional
FSM-driven dispatch engine (flipFlopFsm and the readVars / readNextVars /
writeVars entry points) and of the MIB tree indexer (the private
indexing routine guarded by lastBuildId / lastBuildSyms), together with
theorems about the embedded definitions.

Modelling conventions:
- object identifiers are lists of naturals; opaque payloads are naturals;
- machine state that Python mutates in place (the shared var-bind list,
  the per-round completion counter, the controller's cached fields) is
  threaded explicitly;
- a Python exception propagating out of a call is an explicit error value;
- recursion between rounds is step-indexed by a fuel parameter; running
  out of fuel yields a distinguished marker that no theorem treats as a
  behaviour of the source.
-/

/-- Modelled from the spec: the exception taxonomy of pysnmp.smi.error
(the error module itself is not part of the sources here).  The three
per-binding semantic errors (no such object, no such instance, end of
MIB view) are subclasses of SmiError; the remaining kinds stand for a
generic SmiError, Python's KeyError and TypeError, and an arbitrary
non-SMI exception.  fuelOut is an artifact of the step-indexed
embedding, not a Python exception. -/
inductive ExcKind where
  | noSuchObjectError
  | noSuchInstanceError
  | endOfMibViewError
  | smiError
  | keyError
  | typeError
  | otherError
  | fuelOut
deriving DecidableEq, Repr

/-- Modelled from the spec: which exception classes the except clause of
the dispatch loop (except error.SmiError) catches: SmiError and its
three per-binding subclasses. -/
def ExcKind.isSmiError : ExcKind → Bool
  | .noSuchObjectError => true
  | .noSuchInstanceError => true
  | .endOfMibViewError => true
  | .smiError => true
  | _ => false

/-- A var-bind value: either a concrete typed value, the no-value
sentinel, a captured exception triple (exc type, exc value, traceback)
stored transiently in a binding slot, or one of the three placeholder
markers.  The placeholder constants noSuchObject / noSuchInstance /
endOfMibView are modelled from the spec (pysnmp.proto.rfc1905 is not
part of the sources here). -/
inductive Value where
  | val (n : Nat)
  | noValue
  | excTuple (k : ExcKind)
  | noSuchObject
  | noSuchInstance
  | endOfMibView
deriving DecidableEq, Repr

/-- A variable binding: a name paired with a value (names are opaque
here; the engine never inspects them). -/
abbrev VarBind := Nat × Value

/-- The state names of the dispatch FSM, one per string constant of
MibInstrumController (STATE_START, STATE_STOP, STATE_ANY and the eight
phase-method names). -/
inductive FsmState where
  | start
  | stop
  | any
  | readTest
  | readGet
  | readTestNext
  | readGetNext
  | writeTest
  | writeCommit
  | writeCleanup
  | writeUndo
deriving DecidableEq, Repr

/-- Batch status: STATUS_OK or STATUS_ERROR. -/
inductive Status where
  | ok
  | err
deriving DecidableEq, Repr

/-- An FSM transition table: the (state, status) -> newState mapping. -/
abbrev FsmTable := List ((FsmState × Status) × FsmState)

/-- Association-list lookup for the transition tables (the source's dict
lookup; the three tables have no duplicate keys). -/
def tblFind (tbl : FsmTable) (k : FsmState × Status) : Option FsmState :=
  match tbl with
  | [] => none
  | (k', v) :: rest => if k' = k then some v else tblFind rest k

/-- fsmReadVar from the source. -/
def fsmReadVar : FsmTable :=
  [((.start, .ok), .readTest),
   ((.readTest, .ok), .readGet),
   ((.readGet, .ok), .stop),
   ((.any, .err), .stop)]

/-- fsmReadNextVar from the source. -/
def fsmReadNextVar : FsmTable :=
  [((.start, .ok), .readTestNext),
   ((.readTestNext, .ok), .readGetNext),
   ((.readGetNext, .ok), .stop),
   ((.any, .err), .stop)]

/-- fsmWriteVar from the source, including the error-handling entries
and the trailing-read entries. -/
def fsmWriteVar : FsmTable :=
  [((.start, .ok), .writeTest),
   ((.writeTest, .ok), .writeCommit),
   ((.writeCommit, .ok), .writeCleanup),
   ((.writeCleanup, .ok), .readTest),
   ((.readTest, .ok), .readGet),
   ((.readGet, .ok), .stop),
   ((.writeTest, .err), .writeCleanup),
   ((.writeCommit, .err), .writeUndo),
   ((.writeUndo, .ok), .readTest),
   ((.readTest, .err), .stop),
   ((.readGet, .err), .stop),
   ((.any, .err), .stop)]

/-- Transition resolution of flipFlopFsm: direct lookup, then the
(STATE_ANY, status) fallback; none models the unresolved-state raise. -/
def resolveTransition (tbl : FsmTable) (state : FsmState) (status : Status) :
    Option FsmState :=
  match tblFind tbl (state, status) with
  | some s => some s
  | none => tblFind tbl (.any, status)

/-- True for the eight states that name a phase method of the managed
object capability interface (getattr on the tree root finds a handler
exactly for these). -/
def FsmState.isPhase : FsmState → Bool
  | .start => false
  | .stop => false
  | .any => false
  | _ => true

/-- The dispatch context keys that flipFlopFsm reads and writes
(state, status, varBinds); absent keys model a context dict without that
key.  The continuation itself is kept implicit: every run modelled here
has a continuation supplied. -/
structure Ctx where
  state? : Option FsmState := none
  status? : Option Status := none
  varBinds? : Option (List VarBind) := none
deriving DecidableEq, Repr

/-- Observable events of one engine run: the batches handed to the
top-level continuation, each phase-method invocation (phase, index), and
every resolved FSM transition ((state, status), newState). -/
structure RunLog where
  delivered : List (List VarBind) := []
  dispatched : List (FsmState × Nat) := []
  trans : List ((FsmState × Status) × FsmState) := []
deriving DecidableEq, Repr

/-- Behaviour of a phase-method invocation on the tree root for one
binding: it either synchronously invokes the continuation it was given
with a completed var-bind, or raises synchronously.  Modelled from the
spec: the managed-object capability interface (the node classes are not
part of the sources here); the engine passes the binding, its index and
the dispatch context and never inspects node internals. -/
inductive MgmtRes where
  | complete (vb : VarBind)
  | raise (k : ExcKind)
deriving DecidableEq, Repr

/-- A managed-object tree oracle: the phase-method behaviour per
(phase, index, binding). -/
abbrev Mgmt := FsmState → Nat → VarBind → MgmtRes

/-- The exception-tuple translation block of the inner completion
handler: the three per-binding semantic errors become their placeholder
markers; any other captured exception is re-raised with `raise value`
on the tuple itself, which in Python 3 raises a TypeError. -/
def translateValue : Value → Except ExcKind Value
  | .excTuple .noSuchObjectError => .ok .noSuchObject
  | .excTuple .noSuchInstanceError => .ok .noSuchInstance
  | .excTuple .endOfMibViewError => .ok .endOfMibView
  | .excTuple _ => .error .typeError
  | v => .ok v

/-- Result of one invocation of the inner completion handler: it either
returns with the updated counter and shared list, or reaches the
count-equals-batch-size barrier and is about to recurse into the next
round with the given context, or raises. -/
inductive CbOut where
  | ret (count' : Nat) (vbs' : List VarBind)
  | recurse (count' : Nat) (ctx' : Ctx)
  | exc (e : ExcKind)
deriving DecidableEq, Repr

/-- One invocation of the inner completion handler of flipFlopFsm: pop
idx, read varBinds from the context (KeyError if absent), unpack the
var-bind (TypeError on the no-var-binds None), translate a captured
exception tuple, store the slot (TypeError if idx is None), bump the
shared counter, and either return (counter below the batch size) or
prepare the recursion into the next round carrying the context's state
and status and the updated shared list. -/
def cbFunStep (batchLen count : Nat) (varBind? : Option VarBind)
    (idx? : Option Nat) (ctxState? : Option FsmState)
    (ctxStatus? : Option Status) (ctxVarBinds? : Option (List VarBind)) :
    CbOut :=
  match ctxVarBinds? with
  | none => .exc .keyError
  | some vbs =>
    match varBind? with
    | none => .exc .typeError
    | some (name, value) =>
      match translateValue value with
      | .error e => .exc e
      | .ok value' =>
        match idx? with
        | none => .exc .typeError
        | some i =>
          let vbs' := vbs.set i (name, value')
          let count' := count + 1
          if count' < batchLen then .ret count' vbs'
          else .recurse count'
            { state? := ctxState?, status? := ctxStatus?,
              varBinds? := some vbs' }

mutual

/-- One activation of flipFlopFsm: read state / status / varBinds from
the context or fall back to the START defaults with a fresh copy of the
input batch, resolve the transition (SmiError when unresolved), deliver
the batch to the continuation at STOP, run the no-var-binds branch on an
empty batch, and otherwise dispatch the phase method for each binding in
index order.  Returns the accumulated observables and the exception
propagating out, if any. -/
def flipFlopFsm (M : Mgmt) (tbl : FsmTable) (fuel : Nat)
    (varBinds : List VarBind) (ctx : Ctx) (acc : RunLog) :
    RunLog × Option ExcKind :=
  match fuel with
  | 0 => (acc, some .fuelOut)
  | fuel + 1 =>
    let (state, status, vbs) :=
      match ctx.state?, ctx.status?, ctx.varBinds? with
      | some s, some st, some vb => (s, st, vb)
      | _, _, _ => (FsmState.start, Status.ok, varBinds)
    match resolveTransition tbl state status with
    | none => (acc, some .smiError)
    | some newState =>
      let acc1 := { acc with trans := acc.trans ++ [((state, status), newState)] }
      if newState = .stop then
        ({ acc1 with delivered := acc1.delivered ++ [vbs] }, none)
      else if varBinds.isEmpty then
        match cbFunStep varBinds.length 0 none none ctx.state? ctx.status?
            ctx.varBinds? with
        | .exc e => (acc1, some e)
        | .ret _ _ => (acc1, none)
        | .recurse _ ctx' => flipFlopFsm M tbl fuel varBinds ctx' acc1
      else if newState.isPhase then
        dispatchLoop M tbl fuel varBinds newState status ctx 0 0 vbs varBinds acc1
      else (acc1, some .smiError)
termination_by structural fuel

/-- The per-binding dispatch loop of flipFlopFsm: invoke the phase
method for each remaining binding with a synchronous semantics.  A
normal completion runs the completion handler inside the try block; a
synchronous SmiError (raised by the phase method, or propagating out of
an inner round started from within the try block) is caught and routed
through the except branch; any other exception propagates. -/
def dispatchLoop (M : Mgmt) (tbl : FsmTable) (fuel : Nat)
    (varBinds : List VarBind) (phase : FsmState) (status : Status)
    (ctx : Ctx) (idx count : Nat) (vbs : List VarBind)
    (rest : List VarBind) (acc : RunLog) : RunLog × Option ExcKind :=
  match fuel with
  | 0 => (acc, some .fuelOut)
  | fuel + 1 =>
    match rest with
    | [] => (acc, none)
    | vb :: rest' =>
      let acc1 := { acc with dispatched := acc.dispatched ++ [(phase, idx)] }
      match M phase idx vb with
      | .complete vb' =>
        match cbFunStep varBinds.length count (some vb') (some idx)
            (some phase) (some status) (some vbs) with
        | .ret count' vbs' =>
          dispatchLoop M tbl fuel varBinds phase status ctx (idx + 1) count'
            vbs' rest' acc1
        | .recurse count' ctx' =>
          match flipFlopFsm M tbl fuel varBinds ctx' acc1 with
          | (acc2, none) =>
            dispatchLoop M tbl fuel varBinds phase status ctx (idx + 1) count'
              vbs rest' acc2
          | (acc2, some e) =>
            if e.isSmiError then exceptStep M tbl fuel varBinds vb.1 idx count' ctx acc2 e
            else (acc2, some e)
        | .exc e =>
          if e.isSmiError then exceptStep M tbl fuel varBinds vb.1 idx count ctx acc1 e
          else (acc1, some e)
      | .raise k =>
        if k.isSmiError then exceptStep M tbl fuel varBinds vb.1 idx count ctx acc1 k
        else (acc1, some k)
termination_by structural fuel

/-- The except branch of the dispatch loop: rebuild the current binding
as (name, captured exception tuple) and invoke the completion handler
with the loop's own incoming context overridden to STATUS_ERROR - note
the incoming context, so the state and varBinds keys (or their absence)
are those the activation itself was called with, not the nested ones
given to the phase method.  The invocation sits outside the try block,
so anything it raises propagates. -/
def exceptStep (M : Mgmt) (tbl : FsmTable) (fuel : Nat)
    (varBinds : List VarBind) (name : Nat) (idx count : Nat) (ctx : Ctx)
    (acc : RunLog) (k : ExcKind) : RunLog × Option ExcKind :=
  match fuel with
  | 0 => (acc, some .fuelOut)
  | fuel + 1 =>
    match cbFunStep varBinds.length count (some (name, .excTuple k)) (some idx)
        ctx.state? (some .err) ctx.varBinds? with
    | .ret _ _ => (acc, none)
    | .exc e => (acc, some e)
    | .recurse _ ctx' => flipFlopFsm M tbl fuel varBinds ctx' acc
termination_by structural fuel

end

/-- readVars: select fsmReadVar and start the FSM with only the
continuation in the context. -/
def readVars (M : Mgmt) (fuel : Nat) (varBinds : List VarBind) :
    RunLog × Option ExcKind :=
  flipFlopFsm M fsmReadVar fuel varBinds {} {}

/-- readNextVars: select fsmReadNextVar and start the FSM with only the
continuation in the context. -/
def readNextVars (M : Mgmt) (fuel : Nat) (varBinds : List VarBind) :
    RunLog × Option ExcKind :=
  flipFlopFsm M fsmReadNextVar fuel varBinds {} {}

/-- writeVars: select fsmWriteVar and start the FSM with only the
continuation in the context. -/
def writeVars (M : Mgmt) (fuel : Nat) (varBinds : List VarBind) :
    RunLog × Option ExcKind :=
  flipFlopFsm M fsmWriteVar fuel varBinds {} {}

/-- The completion-barrier mechanism of the inner completion handler,
isolated from the FSM recursion: each arriving per-binding completion
(idx, varBind) stores its var-bind into its own slot of the shared batch
and bumps the shared completion counter; the round advances only when
the counter reaches the batch size.  Arrivals may come in any order. -/
def cbArrivals (arrivals : List (Nat × VarBind))
    (st : List VarBind × Nat) : List VarBind × Nat :=
  match arrivals with
  | [] => st
  | (i, vb) :: rest => cbArrivals rest (st.1.set i vb, st.2 + 1)

/-- Modelled from the spec: the five Managed-Object node variants of
SNMPv2-SMI (the node classes are not part of the sources here); other
covers module symbols that are none of the five and are dropped by the
classification loop.  Each object carries its most-derived class as a
single tag, matching the isinstance cascade of the source. -/
inductive Variant where
  | table
  | row
  | col
  | inst
  | scalar
  | other
deriving DecidableEq, Repr

/-- A module symbol as the indexer sees it: its name (an OID), its
typeName (the OID of its parent type, meaningful for scalar instances),
its variant and an opaque payload distinguishing the concrete object. -/
structure MibSym where
  name : List Nat
  typeName : List Nat
  variant : Variant
  tag : Nat
deriving DecidableEq, Repr

/-- Modelled from the spec: the module-loader collaborator: the loaded
modules as (module name, symbol values in dict order) pairs and the
monotonically assigned build version.  Module names are ordered
lexically; the embedding models them by naturals carrying that order. -/
structure MibBuilder where
  mibSymbols : List (Nat × List MibSym)
  lastBuildId : Int
deriving DecidableEq, Repr

/-- The controller's cached indexing state: the build version it last
indexed against and the child-name to parent-name attachment map it
last produced. -/
structure Ctrl where
  lastBuildId : Int
  lastBuildSyms : List (List Nat × List Nat)
deriving DecidableEq, Repr

/-- Python dict assignment on an association list: replace in place if
the key is present (keeping its position), else append. -/
def dictInsert {α β : Type} [DecidableEq α] (m : List (α × β)) (k : α)
    (v : β) : List (α × β) :=
  match m with
  | [] => [(k, v)]
  | (k', v') :: rest =>
    if k' = k then (k, v) :: rest else (k', v') :: dictInsert rest k v

/-- Python dict lookup on an association list. -/
def keyFind {α β : Type} [DecidableEq α] (m : List (α × β)) (k : α) :
    Option β :=
  match m with
  | [] => none
  | (k', v) :: rest => if k' = k then some v else keyFind rest k

/-- Python dict membership on an association list. -/
def keyMem {α β : Type} [DecidableEq α] (m : List (α × β)) (k : α) : Bool :=
  (keyFind m k).isSome

/-- Stable insertion of a module into a list already sorted by
descending module name (the helper of the descending sort below). -/
def insertDescMod (m : Nat × List MibSym) :
    List (Nat × List MibSym) → List (Nat × List MibSym)
  | [] => [m]
  | x :: xs => if m.1 < x.1 then x :: insertDescMod m xs else m :: x :: xs

/-- The source's mibSymbols.sort(key = module name, reverse = True): a
stable sort by descending module name. -/
def sortDesc : List (Nat × List MibSym) → List (Nat × List MibSym)
  | [] => []
  | m :: ms => insertDescMod m (sortDesc ms)

/-- The five per-variant buckets built by the classification loop. -/
structure Buckets where
  tables : List (List Nat × MibSym) := []
  rows : List (List Nat × MibSym) := []
  cols : List (List Nat × MibSym) := []
  instances : List (List Nat × MibSym) := []
  scalars : List (List Nat × MibSym) := []
deriving DecidableEq, Repr

/-- One step of the classification loop: drop the symbol into the
bucket of its variant, keyed by its name (later insertions overwrite
earlier ones); non-managed symbols are dropped. -/
def classifyInsert (b : Buckets) (s : MibSym) : Buckets :=
  match s.variant with
  | .table => { b with tables := dictInsert b.tables s.name s }
  | .row => { b with rows := dictInsert b.rows s.name s }
  | .col => { b with cols := dictInsert b.cols s.name s }
  | .inst => { b with instances := dictInsert b.instances s.name s }
  | .scalar => { b with scalars := dictInsert b.scalars s.name s }
  | .other => b

/-- The stream of symbols the classification loop visits: all symbols
of all modules, modules in descending name order, each module's symbols
in their dict order. -/
def symStream (mods : List (Nat × List MibSym)) : List MibSym :=
  ((sortDesc mods).map Prod.snd).flatten

/-- The classification loop of the indexer: fold the symbol stream into
the per-variant buckets. -/
def collectBuckets (mods : List (Nat × List MibSym)) : Buckets :=
  (symStream mods).foldl classifyInsert {}

/-- Which node a registerSubtrees / unregisterSubtrees call is made on:
a scalar, column or row found by name, or the tree root (iso). -/
inductive ParentRef where
  | scalarNode (n : List Nat)
  | colNode (n : List Nat)
  | rowNode (n : List Nat)
  | root
deriving DecidableEq, Repr

/-- One attach or detach side effect performed on the node tree. -/
inductive Op where
  | unregisterSubtrees (parent : ParentRef) (child : List Nat)
  | registerSubtrees (parent : ParentRef) (child : MibSym)
deriving DecidableEq, Repr

/-- The name of the tree root (the iso node). -/
def rootName : List Nat := [1]

/-- The detach pass: for every (child, parent) pair recorded by the
previous successful index, unregister the child from whichever bucket
currently holds the parent name, else from the root. -/
def detachOps (bk : Buckets) (lastBuildSyms : List (List Nat × List Nat)) :
    List Op :=
  lastBuildSyms.map fun p =>
    if keyMem bk.scalars p.2 then .unregisterSubtrees (.scalarNode p.2) p.1
    else if keyMem bk.cols p.2 then .unregisterSubtrees (.colNode p.2) p.1
    else if keyMem bk.rows p.2 then .unregisterSubtrees (.rowNode p.2) p.1
    else .unregisterSubtrees .root p.1

/-- The first attach pass: each scalar instance registers under the
scalar or column named by its typeName; a typeName matching neither is
the orphan-scalar-instance SmiError, aborting with the side effects
performed so far. -/
def attachInstances (bk : Buckets) :
    List MibSym → List Op → List (List Nat × List Nat) →
    Except (List Op) (List Op × List (List Nat × List Nat))
  | [], ops, lbs => .ok (ops, lbs)
  | i :: rest, ops, lbs =>
    if keyMem bk.scalars i.typeName then
      attachInstances bk rest
        (ops ++ [.registerSubtrees (.scalarNode i.typeName) i])
        (dictInsert lbs i.name i.typeName)
    else if keyMem bk.cols i.typeName then
      attachInstances bk rest
        (ops ++ [.registerSubtrees (.colNode i.typeName) i])
        (dictInsert lbs i.name i.typeName)
    else .error ops

/-- The second attach pass: each table column registers under the row
whose name is the column's name minus its last component; no such row
is the orphan-table-column SmiError, aborting with the side effects
performed so far. -/
def attachCols (bk : Buckets) :
    List MibSym → List Op → List (List Nat × List Nat) →
    Except (List Op) (List Op × List (List Nat × List Nat))
  | [], ops, lbs => .ok (ops, lbs)
  | c :: rest, ops, lbs =>
    if keyMem bk.rows c.name.dropLast then
      attachCols bk rest
        (ops ++ [.registerSubtrees (.rowNode c.name.dropLast) c])
        (dictInsert lbs c.name c.name.dropLast)
    else .error ops

/-- The remaining attach passes: rows, tables and scalars register
directly under the tree root. -/
def attachUnderRoot (syms : List MibSym) (ops : List Op)
    (lbs : List (List Nat × List Nat)) :
    List Op × List (List Nat × List Nat) :=
  match syms with
  | [] => (ops, lbs)
  | s :: rest =>
    attachUnderRoot rest (ops ++ [.registerSubtrees .root s])
      (dictInsert lbs s.name rootName)

/-- Result of one indexing pass: the controller's cached state
afterwards, the tree side effects performed, and whether an SmiError
was raised (aborting before the cached state was assigned). -/
structure IndexOut where
  self : Ctrl
  ops : List Op
  raised : Bool
deriving DecidableEq, Repr

/-- The indexing routine: a no-op when the cached build version equals
the loader's; otherwise classify all symbols into buckets, detach the
previously recorded associations, reattach instances, columns, rows,
tables and scalars in that order, and only then store the new
attachment map and build version.  An orphan aborts the pass by raising
and leaves the cached fields untouched. -/
def indexMib (c : Ctrl) (mb : MibBuilder) : IndexOut :=
  if c.lastBuildId = mb.lastBuildId then ⟨c, [], false⟩
  else
    let bk := collectBuckets mb.mibSymbols
    let dops := detachOps bk c.lastBuildSyms
    match attachInstances bk (bk.instances.map Prod.snd) dops [] with
    | .error ops => ⟨c, ops, true⟩
    | .ok (ops1, lbs1) =>
      match attachCols bk (bk.cols.map Prod.snd) ops1 lbs1 with
      | .error ops => ⟨c, ops, true⟩
      | .ok (ops2, lbs2) =>
        let (ops3, lbs3) := attachUnderRoot (bk.rows.map Prod.snd) ops2 lbs2
        let (ops4, lbs4) := attachUnderRoot (bk.tables.map Prod.snd) ops3 lbs3
        let (ops5, lbs5) := attachUnderRoot (bk.scalars.map Prod.snd) ops4 lbs4
        ⟨{ lastBuildId := mb.lastBuildId, lastBuildSyms := lbs5 }, ops5, false⟩

/-- A scalar instance is an orphan when its typeName names no known
scalar and no known table column. -/
def orphanInst (bk : Buckets) (s : MibSym) : Bool :=
  !keyMem bk.scalars s.typeName && !keyMem bk.cols s.typeName

/-- A table column is an orphan when its name minus its last component
names no known table row. -/
def orphanCol (bk : Buckets) (s : MibSym) : Bool :=
  !keyMem bk.rows s.name.dropLast

/-- Some bucketed symbol is an orphan (the condition under which the
rebuild raises). -/
def hasOrphan (bk : Buckets) : Bool :=
  (bk.instances.map Prod.snd).any (orphanInst bk) ||
    (bk.cols.map Prod.snd).any (orphanCol bk)

/-- An oracle whose writeCommit phase raises NoSuchInstanceError (an
SmiError) synchronously and whose other phases complete normally. -/
def mgmtCommitFails : Mgmt := fun phase _ vb =>
  match phase with
  | .writeCommit => .raise .noSuchInstanceError
  | _ => .complete (vb.1, .val 5)

/-- An oracle whose readGet phase raises NoSuchInstanceError
synchronously for binding 0 and completes normally elsewhere. -/
def mgmtGetFailsAt0 : Mgmt := fun phase idx vb =>
  match phase, idx with
  | .readGet, 0 => .raise .noSuchInstanceError
  | _, _ => .complete (vb.1, .val (10 + idx))

/-- An oracle whose readGet phase raises NoSuchInstanceError
synchronously for binding 0 and completes normally elsewhere (a second
copy kept separate from mgmtGetFailsAt0 so distinct claims share no
definitions). -/
def mgmtGetFailsAt0Wide : Mgmt := fun phase idx vb =>
  match phase, idx with
  | .readGet, 0 => .raise .noSuchInstanceError
  | _, _ => .complete (vb.1, .val (20 + idx))

/-- An oracle completing every phase normally. -/
def mgmtAllOk : Mgmt := fun _ idx vb => .complete (vb.1, .val (10 + idx))

/-- An oracle whose readGet completion for binding 1 carries a captured
per-binding exception tuple of the given kind; everything else
completes with a plain value. -/
def mgmtPerBinding (k : ExcKind) : Mgmt := fun phase idx vb =>
  if phase = .readGet ∧ idx = 1 then .complete (vb.1, .excTuple k)
  else .complete (vb.1, .val (10 + idx))

/-- The placeholder marker corresponding to a per-binding semantic
error kind (meaningful for the three special kinds only). -/
def placeholderOf : ExcKind → Value
  | .noSuchObjectError => .noSuchObject
  | .noSuchInstanceError => .noSuchInstance
  | .endOfMibViewError => .endOfMibView
  | _ => .noValue

/-- C1: the fsmWriteVar table does contain the claimed error branches
((WRITE_TEST, ERROR) to WRITE_CLEANUP, (WRITE_COMMIT, ERROR) to
WRITE_UNDO, (WRITE_UNDO, OK) to READ_TEST, trailing read errors to
STOP), but the engine does not follow them: in a writeVars batch whose
writeCommit raises an SmiError, the failure is recorded against the
previous round's state, so the run transitions (WRITE_TEST, ERROR) to
WRITE_CLEANUP and then stops, and WRITE_UNDO is never dispatched -
contradicting the claim that a failure at WRITE_COMMIT moves the batch
to WRITE_UNDO. -/
theorem claim1_write_fsm_error_branches :
    tblFind fsmWriteVar (.writeTest, .err) = some .writeCleanup ∧
    tblFind fsmWriteVar (.writeCommit, .err) = some .writeUndo ∧
    tblFind fsmWriteVar (.writeUndo, .ok) = some .readTest ∧
    tblFind fsmWriteVar (.readTest, .err) = some .stop ∧
    tblFind fsmWriteVar (.readGet, .err) = some .stop ∧
    writeVars mgmtCommitFails 50 [(0, .val 7)] =
      ({ delivered := [[(0, .val 5)]],
         dispatched := [(.writeTest, 0), (.writeCommit, 0), (.writeCleanup, 0)],
         trans := [((.start, .ok), .writeTest),
                   ((.writeTest, .ok), .writeCommit),
                   ((.writeTest, .err), .writeCleanup),
                   ((.writeCleanup, .err), .stop)] }, none) ∧
    ((writeVars mgmtCommitFails 50 [(0, .val 7)]).1.dispatched.all
      fun p => p.1 ≠ .writeUndo) = true := by decide

/-- C3: the continuation is not always invoked: with two bindings whose
readGet raises an SmiError synchronously at index 0, the completion
counter never reaches the batch size, the engine returns normally
without any further round, and the continuation is never called -
contradicting invoked-exactly-once. -/
theorem claim3_continuation_skipped_on_midround_error :
    readVars mgmtGetFailsAt0 50 [(0, .noValue), (1, .noValue)] =
      ({ delivered := [],
         dispatched := [(.readTest, 0), (.readTest, 1), (.readGet, 0)],
         trans := [((.start, .ok), .readTest),
                   ((.readTest, .ok), .readGet)] }, none) := by decide

/-- C4: a synchronous SmiError at index 0 of a three-binding round does
convert the failure via the shared completion handler with ERROR status
and does skip the not-yet-dispatched bindings 1 and 2 for that round,
but it does not immediately recurse into the next flipFlopFsm round:
the counter (1 of 3) blocks the advance, the run ends with no third
transition and nothing delivered. -/
theorem claim4_no_immediate_recursion_after_sync_error :
    readVars mgmtGetFailsAt0Wide 50 [(0, .noValue), (1, .noValue), (2, .noValue)] =
      ({ delivered := [],
         dispatched := [(.readTest, 0), (.readTest, 1), (.readTest, 2),
                        (.readGet, 0)],
         trans := [((.start, .ok), .readTest),
                   ((.readTest, .ok), .readGet)] }, none) := by decide

/-- C5: a phase completion carrying a captured per-binding semantic
exception of any of the three special kinds is rendered as the matching
placeholder marker in that binding's slot, the other binding is
untouched, the batch stays on the OK transition chain and is delivered
to the continuation. -/
theorem claim5_per_binding_exceptions_become_placeholders (k : ExcKind)
    (hk : k = .noSuchObjectError ∨ k = .noSuchInstanceError ∨
      k = .endOfMibViewError) :
    readVars (mgmtPerBinding k) 50 [(7, .noValue), (8, .noValue)] =
      ({ delivered := [[(7, .val 10), (8, placeholderOf k)]],
         dispatched := [(.readTest, 0), (.readTest, 1), (.readGet, 0),
                        (.readGet, 1)],
         trans := [((.start, .ok), .readTest),
                   ((.readTest, .ok), .readGet),
                   ((.readGet, .ok), .stop)] }, none) := by
  rcases hk with h | h | h <;> subst h <;> decide

/-- Witness for C5 at the no-such-instance kind. -/
theorem claim5_witness :
    readVars (mgmtPerBinding .noSuchInstanceError) 50
        [(7, .noValue), (8, .noValue)] =
      ({ delivered := [[(7, .val 10), (8, Value.noSuchInstance)]],
         dispatched := [(.readTest, 0), (.readTest, 1), (.readGet, 0),
                        (.readGet, 1)],
         trans := [((.start, .ok), .readTest),
                   ((.readTest, .ok), .readGet),
                   ((.readGet, .ok), .stop)] }, none) :=
  claim5_per_binding_exceptions_become_placeholders .noSuchInstanceError
    (Or.inr (Or.inl rfl))

/-- C9: an empty batch does not produce a vacuous completion that
advances the FSM: the first round's context has no varBinds entry, so
the no-var-binds branch's completion-handler call raises KeyError,
which propagates out of readVars, and the continuation never runs. -/
theorem claim9_empty_batch_raises_keyerror :
    readVars mgmtAllOk 50 [] =
      ({ delivered := [], dispatched := [],
         trans := [((.start, .ok), .readTest)] }, some .keyError) := by decide

/-- C10: the dispatch loop catches only SmiError: when the first phase
method of any of the three entry points raises a synchronous exception
whose kind is not an SmiError, that exception propagates uncaught out
of the entry point, no batch-level ERROR transition is taken and the
continuation is never invoked. -/
theorem claim10_non_smi_exceptions_propagate (M : Mgmt) (k : ExcKind)
    (vb : VarBind) (rest : List VarBind) (fuel : Nat)
    (hk : k.isSmiError = false)
    (h1 : M .readTest 0 vb = .raise k)
    (h2 : M .readTestNext 0 vb = .raise k)
    (h3 : M .writeTest 0 vb = .raise k) :
    readVars M (fuel + 2) (vb :: rest) =
      ({ delivered := [], dispatched := [(.readTest, 0)],
         trans := [((.start, .ok), .readTest)] }, some k) ∧
    readNextVars M (fuel + 2) (vb :: rest) =
      ({ delivered := [], dispatched := [(.readTestNext, 0)],
         trans := [((.start, .ok), .readTestNext)] }, some k) ∧
    writeVars M (fuel + 2) (vb :: rest) =
      ({ delivered := [], dispatched := [(.writeTest, 0)],
         trans := [((.start, .ok), .writeTest)] }, some k) := by
  refine ⟨?_, ?_, ?_⟩ <;>
    simp [readVars, readNextVars, writeVars, flipFlopFsm, dispatchLoop,
      resolveTransition, tblFind, fsmReadVar, fsmReadNextVar, fsmWriteVar,
      FsmState.isPhase, h1, h2, h3, hk]

/-- An oracle raising a non-SMI exception from every phase method. -/
def mgmtRaisesOther : Mgmt := fun _ _ _ => .raise .otherError

/-- Witness for C10 at a concrete non-SMI exception kind. -/
theorem claim10_witness :
    readVars mgmtRaisesOther 2 [(5, .noValue)] =
      ({ delivered := [], dispatched := [(.readTest, 0)],
         trans := [((.start, .ok), .readTest)] }, some .otherError) ∧
    readNextVars mgmtRaisesOther 2 [(5, .noValue)] =
      ({ delivered := [], dispatched := [(.readTestNext, 0)],
         trans := [((.start, .ok), .readTestNext)] }, some .otherError) ∧
    writeVars mgmtRaisesOther 2 [(5, .noValue)] =
      ({ delivered := [], dispatched := [(.writeTest, 0)],
         trans := [((.start, .ok), .writeTest)] }, some .otherError) :=
  claim10_non_smi_exceptions_propagate mgmtRaisesOther .otherError
    (5, .noValue) [] 0 rfl rfl rfl rfl

/-- Unfolding of the completion-barrier fold: the final shared batch is
the left fold of the slot writes and the counter grows by one per
arrival. -/
theorem cbArrivals_unfold (l : List (Nat × VarBind)) (vbs : List VarBind)
    (c : Nat) :
    cbArrivals l (vbs, c) =
      (l.foldl (fun a p => a.set p.1 p.2) vbs, c + l.length) := by
  induction l generalizing vbs c with
  | nil => simp [cbArrivals]
  | cons p rest ih =>
    rw [cbArrivals, List.foldl_cons, ih]
    simp
    omega

/-- Slot writes preserve the length of the shared batch. -/
theorem foldl_set_length (l : List (Nat × VarBind)) (vbs : List VarBind) :
    (l.foldl (fun a p => a.set p.1 p.2) vbs).length = vbs.length := by
  induction l generalizing vbs with
  | nil => rfl
  | cons p rest ih => rw [List.foldl_cons, ih, List.length_set]

/-- A slot never written by any arrival keeps its original content. -/
theorem foldl_set_preserve (l : List (Nat × VarBind)) (vbs : List VarBind)
    (j : Nat) (h : ∀ p ∈ l, p.1 ≠ j) :
    (l.foldl (fun a p => a.set p.1 p.2) vbs)[j]? = vbs[j]? := by
  induction l generalizing vbs with
  | nil => rfl
  | cons p rest ih =>
    rw [List.foldl_cons, ih _ (fun q hq => h q (List.mem_cons_of_mem _ hq)),
      List.getElem?_set_ne (h p (List.mem_cons_self _ _))]

/-- A slot written exactly once (the arrival indices are distinct) holds
the result produced for its own index. -/
theorem foldl_set_cover (r : Nat → VarBind) (order : List Nat)
    (vbs : List VarBind) (j : Nat) (hmem : j ∈ order) (hnd : order.Nodup)
    (hlt : ∀ i ∈ order, i < vbs.length) :
    ((order.map fun i => (i, r i)).foldl (fun a p => a.set p.1 p.2) vbs)[j]? =
      some (r j) := by
  induction order generalizing vbs with
  | nil => cases hmem
  | cons i rest ih =>
    rw [List.map_cons, List.foldl_cons]
    rcases List.mem_cons.mp hmem with h | h
    · subst h
      have hni : ∀ p ∈ rest.map fun i => (i, r i), p.1 ≠ j := by
        rintro ⟨i', v⟩ hp
        simp only [List.mem_map] at hp
        rcases hp with ⟨i0, hi0, he⟩
        cases he
        intro hc
        subst hc
        exact (List.nodup_cons.mp hnd).1 hi0
      rw [foldl_set_preserve _ _ _ hni,
        List.getElem?_set_self (hlt j (List.mem_cons_self _ _))]
    · exact ih (vbs.set i (r i)) h (List.nodup_cons.mp hnd).2
        (fun i' hi' => by
          rw [List.length_set]
          exact hlt i' (List.mem_cons_of_mem _ hi'))

/-- C2: for a batch of N bindings, whatever order the N per-binding
completions arrive in (any permutation of the indices, binding i
completing with the result produced for binding i), the shared batch
after all completions has exactly N entries with the result for binding
i at index i, and the completion counter - which is what gates the
advance to the next round - has reached exactly N. -/
theorem claim2_barrier_order_independent (N : Nat) (r : Nat → VarBind)
    (order : List Nat) (hperm : order.Perm (List.range N))
    (vbs0 : List VarBind) (h0 : vbs0.length = N) :
    cbArrivals (order.map fun i => (i, r i)) (vbs0, 0) =
      ((List.range N).map r, N) := by
  rw [cbArrivals_unfold]
  have hlen : order.length = N := by
    rw [hperm.length_eq, List.length_range]
  congr 1
  · apply List.ext_getElem?
    intro j
    by_cases hj : j < N
    · rw [foldl_set_cover r order vbs0 j
        (hperm.mem_iff.mpr (List.mem_range.mpr hj))
        (hperm.nodup_iff.mpr (List.nodup_range N))
        (fun i hi => by
          rw [h0]
          exact List.mem_range.mp (hperm.mem_iff.mp hi)),
        List.getElem?_map, List.getElem?_range hj]
      rfl
    · have h1 := @List.getElem?_eq_none _
        ((order.map fun i => (i, r i)).foldl (fun a p => a.set p.1 p.2) vbs0)
        j (by rw [foldl_set_length, h0]; omega)
      have h2 := @List.getElem?_eq_none _ ((List.range N).map r) j
        (by rw [List.length_map, List.length_range]; omega)
      rw [h1, h2]
  · rw [List.length_map, hlen]
    omega

/-- Witness for C2: three bindings completing in the order 2, 0, 1. -/
theorem claim2_witness :
    cbArrivals ([2, 0, 1].map fun i => (i, (i, Value.val (100 + i))))
      ([(9, .noValue), (9, .noValue), (9, .noValue)], 0) =
      ((List.range 3).map fun i => (i, Value.val (100 + i)), 3) :=
  claim2_barrier_order_independent 3 (fun i => (i, Value.val (100 + i)))
    [2, 0, 1] (by decide) [(9, .noValue), (9, .noValue), (9, .noValue)]
    (by decide)

/-- If some instance in the list is an orphan, the instance attach pass
aborts with an error. -/
theorem attachInstances_error (bk : Buckets) (l : List MibSym) :
    ∀ ops lbs, l.any (orphanInst bk) = true →
      ∃ ops', attachInstances bk l ops lbs = .error ops' := by
  induction l with
  | nil => intro ops lbs h; cases h
  | cons i rest ih =>
    intro ops lbs h
    rw [List.any_cons] at h
    by_cases h1 : keyMem bk.scalars i.typeName = true
    · rw [attachInstances, if_pos h1]
      apply ih
      have hpi : orphanInst bk i = false := by simp [orphanInst, h1]
      rw [hpi] at h
      simpa using h
    · by_cases h2 : keyMem bk.cols i.typeName = true
      · rw [attachInstances, if_neg h1, if_pos h2]
        apply ih
        have hpi : orphanInst bk i = false := by simp [orphanInst, h2]
        rw [hpi] at h
        simpa using h
      · rw [attachInstances, if_neg h1, if_neg h2]
        exact ⟨ops, rfl⟩

/-- With no orphan instance in the list, the instance attach pass
completes. -/
theorem attachInstances_ok (bk : Buckets) (l : List MibSym) :
    ∀ ops lbs, l.any (orphanInst bk) = false →
      ∃ out, attachInstances bk l ops lbs = .ok out := by
  induction l with
  | nil => intro ops lbs _; exact ⟨(ops, lbs), rfl⟩
  | cons i rest ih =>
    intro ops lbs h
    rw [List.any_cons, Bool.or_eq_false_iff] at h
    have hi : orphanInst bk i = false := h.1
    rw [orphanInst, Bool.and_eq_false_iff] at hi
    by_cases h1 : keyMem bk.scalars i.typeName = true
    · rw [attachInstances, if_pos h1]
      exact ih _ _ h.2
    · have h2 : keyMem bk.cols i.typeName = true := by
        rcases hi with h' | h'
        · exact absurd (by simpa using h') h1
        · simpa using h'
      rw [attachInstances, if_neg h1, if_pos h2]
      exact ih _ _ h.2

/-- If some column in the list is an orphan, the column attach pass
aborts with an error. -/
theorem attachCols_error (bk : Buckets) (l : List MibSym) :
    ∀ ops lbs, l.any (orphanCol bk) = true →
      ∃ ops', attachCols bk l ops lbs = .error ops' := by
  induction l with
  | nil => intro ops lbs h; cases h
  | cons cSym rest ih =>
    intro ops lbs h
    rw [List.any_cons] at h
    by_cases h1 : keyMem bk.rows cSym.name.dropLast = true
    · rw [attachCols, if_pos h1]
      apply ih
      have hpi : orphanCol bk cSym = false := by simp [orphanCol, h1]
      rw [hpi] at h
      simpa using h
    · rw [attachCols, if_neg h1]
      exact ⟨ops, rfl⟩

/-- C6: a rebuild over a symbol set containing any orphan (an instance
whose typeName matches no scalar or column, or a column whose name
minus its last component matches no row) raises the fatal structural
error and aborts, and the controller's cached lastBuildSyms and
lastBuildId are left exactly as they were. -/
theorem claim6_orphan_aborts (c : Ctrl) (mb : MibBuilder)
    (hne : c.lastBuildId ≠ mb.lastBuildId)
    (horphan : hasOrphan (collectBuckets mb.mibSymbols) = true) :
    (indexMib c mb).raised = true ∧ (indexMib c mb).self = c := by
  rw [indexMib, if_neg hne]
  rw [hasOrphan, Bool.or_eq_true] at horphan
  rcases Bool.eq_false_or_eq_true
      (((collectBuckets mb.mibSymbols).instances.map Prod.snd).any
        (orphanInst (collectBuckets mb.mibSymbols))) with hia | hia
  · obtain ⟨ops', he⟩ := attachInstances_error _ _
      (detachOps (collectBuckets mb.mibSymbols) c.lastBuildSyms) [] hia
    simp only [he]
    exact ⟨trivial, trivial⟩
  · have hco : ((collectBuckets mb.mibSymbols).cols.map Prod.snd).any
        (orphanCol (collectBuckets mb.mibSymbols)) = true := by
      rcases horphan with h | h
      · simp [hia] at h
      · exact h
    obtain ⟨⟨ops1, lbs1⟩, he⟩ := attachInstances_ok _ _
      (detachOps (collectBuckets mb.mibSymbols) c.lastBuildSyms) [] hia
    obtain ⟨ops', he2⟩ := attachCols_error _ _ ops1 lbs1 hco
    simp only [he, he2]
    exact ⟨trivial, trivial⟩

/-- A well-attached scalar and its instance, for concrete indexer runs. -/
def symScalarA : MibSym := ⟨[1, 3, 6, 2], [], .scalar, 1⟩

/-- The instance attached under symScalarA. -/
def symInstA : MibSym := ⟨[1, 3, 6, 2, 0], [1, 3, 6, 2], .inst, 2⟩

/-- An orphan scalar instance: its typeName names nothing. -/
def symOrphanInst : MibSym := ⟨[1, 3, 6, 9, 0], [9, 9, 9], .inst, 3⟩

/-- Witness for C6: a module set with an orphan instance aborts and the
cached controller state is untouched. -/
theorem claim6_witness :
    (indexMib ⟨5, [([7, 7], [8, 8])]⟩
      ⟨[(0, [symScalarA, symInstA, symOrphanInst])], 6⟩).raised = true ∧
    (indexMib ⟨5, [([7, 7], [8, 8])]⟩
      ⟨[(0, [symScalarA, symInstA, symOrphanInst])], 6⟩).self =
        ⟨5, [([7, 7], [8, 8])]⟩ :=
  claim6_orphan_aborts ⟨5, [([7, 7], [8, 8])]⟩
    ⟨[(0, [symScalarA, symInstA, symOrphanInst])], 6⟩
    (by decide) (by decide)

/-- The op log of an attach-pass result, whether it aborted or
completed. -/
def exOps : Except (List Op) (List Op × List (List Nat × List Nat)) → List Op
  | .error e => e
  | .ok (ops, _) => ops

/-- The instance attach pass only appends to the op log it is given. -/
theorem attachInstances_ops_prefix (bk : Buckets) (l : List MibSym) :
    ∀ ops lbs, ∃ g, exOps (attachInstances bk l ops lbs) = ops ++ g := by
  induction l with
  | nil => intro ops lbs; exact ⟨[], by simp [attachInstances, exOps]⟩
  | cons i rest ih =>
    intro ops lbs
    rw [attachInstances]
    by_cases h1 : keyMem bk.scalars i.typeName = true
    · rw [if_pos h1]
      obtain ⟨g, hg⟩ := ih (ops ++ [.registerSubtrees (.scalarNode i.typeName) i])
        (dictInsert lbs i.name i.typeName)
      exact ⟨[Op.registerSubtrees (.scalarNode i.typeName) i] ++ g,
        by rw [hg, List.append_assoc]⟩
    · by_cases h2 : keyMem bk.cols i.typeName = true
      · rw [if_neg h1, if_pos h2]
        obtain ⟨g, hg⟩ := ih (ops ++ [.registerSubtrees (.colNode i.typeName) i])
          (dictInsert lbs i.name i.typeName)
        exact ⟨[Op.registerSubtrees (.colNode i.typeName) i] ++ g,
          by rw [hg, List.append_assoc]⟩
      · rw [if_neg h1, if_neg h2]
        exact ⟨[], by simp [exOps]⟩

/-- The column attach pass only appends to the op log it is given. -/
theorem attachCols_ops_prefix (bk : Buckets) (l : List MibSym) :
    ∀ ops lbs, ∃ g, exOps (attachCols bk l ops lbs) = ops ++ g := by
  induction l with
  | nil => intro ops lbs; exact ⟨[], by simp [attachCols, exOps]⟩
  | cons cSym rest ih =>
    intro ops lbs
    rw [attachCols]
    by_cases h1 : keyMem bk.rows cSym.name.dropLast = true
    · rw [if_pos h1]
      obtain ⟨g, hg⟩ := ih
        (ops ++ [.registerSubtrees (.rowNode cSym.name.dropLast) cSym])
        (dictInsert lbs cSym.name cSym.name.dropLast)
      exact ⟨[Op.registerSubtrees (.rowNode cSym.name.dropLast) cSym] ++ g,
        by rw [hg, List.append_assoc]⟩
    · rw [if_neg h1]
      exact ⟨[], by simp [exOps]⟩

/-- The under-root attach passes only append to the op log. -/
theorem attachUnderRoot_ops_prefix (syms : List MibSym) :
    ∀ ops lbs, ∃ g, (attachUnderRoot syms ops lbs).1 = ops ++ g := by
  induction syms with
  | nil => intro ops lbs; exact ⟨[], by simp [attachUnderRoot]⟩
  | cons s rest ih =>
    intro ops lbs
    rw [attachUnderRoot]
    obtain ⟨g, hg⟩ := ih (ops ++ [.registerSubtrees .root s])
      (dictInsert lbs s.name rootName)
    exact ⟨[Op.registerSubtrees .root s] ++ g, by rw [hg, List.append_assoc]⟩

/-- C8: when the loader's build version equals the cached one, the
indexing routine returns at once - no attach or detach operation, cached
fields untouched; otherwise it runs the full pass, whose op log starts
with the detach of every previously recorded association, and on
success it stores the loader's build version. -/
theorem claim8_index_idempotent (c : Ctrl) (mb : MibBuilder) :
    (c.lastBuildId = mb.lastBuildId → indexMib c mb = ⟨c, [], false⟩) ∧
    (c.lastBuildId ≠ mb.lastBuildId →
      (∃ rest, (indexMib c mb).ops =
        detachOps (collectBuckets mb.mibSymbols) c.lastBuildSyms ++ rest) ∧
      ((indexMib c mb).raised = false →
        (indexMib c mb).self.lastBuildId = mb.lastBuildId)) := by
  constructor
  · intro he
    rw [indexMib, if_pos he]
  · intro hne
    rw [indexMib, if_neg hne]
    cases hAI : attachInstances (collectBuckets mb.mibSymbols)
        ((collectBuckets mb.mibSymbols).instances.map Prod.snd)
        (detachOps (collectBuckets mb.mibSymbols) c.lastBuildSyms) [] with
    | error ops =>
      simp only [hAI]
      obtain ⟨g, hg⟩ := attachInstances_ops_prefix (collectBuckets mb.mibSymbols)
        ((collectBuckets mb.mibSymbols).instances.map Prod.snd)
        (detachOps (collectBuckets mb.mibSymbols) c.lastBuildSyms) []
      rw [hAI] at hg
      refine ⟨⟨g, hg⟩, ?_⟩
      intro h
      cases h
    | ok out =>
      obtain ⟨ops1, lbs1⟩ := out
      obtain ⟨g1, hg1⟩ := attachInstances_ops_prefix (collectBuckets mb.mibSymbols)
        ((collectBuckets mb.mibSymbols).instances.map Prod.snd)
        (detachOps (collectBuckets mb.mibSymbols) c.lastBuildSyms) []
      rw [hAI] at hg1
      simp only [exOps] at hg1
      cases hAC : attachCols (collectBuckets mb.mibSymbols)
          ((collectBuckets mb.mibSymbols).cols.map Prod.snd) ops1 lbs1 with
      | error ops =>
        simp only [hAI, hAC]
        obtain ⟨g2, hg2⟩ := attachCols_ops_prefix (collectBuckets mb.mibSymbols)
          ((collectBuckets mb.mibSymbols).cols.map Prod.snd) ops1 lbs1
        rw [hAC] at hg2
        simp only [exOps] at hg2
        refine ⟨⟨g1 ++ g2, ?_⟩, ?_⟩
        · rw [hg2, hg1, List.append_assoc]
        · intro h
          cases h
      | ok out2 =>
        obtain ⟨ops2, lbs2⟩ := out2
        obtain ⟨g2, hg2⟩ := attachCols_ops_prefix (collectBuckets mb.mibSymbols)
          ((collectBuckets mb.mibSymbols).cols.map Prod.snd) ops1 lbs1
        rw [hAC] at hg2
        simp only [exOps] at hg2
        rcases hR1 : attachUnderRoot ((collectBuckets mb.mibSymbols).rows.map Prod.snd)
            ops2 lbs2 with ⟨ops3, lbs3⟩
        obtain ⟨g3, hg3⟩ := attachUnderRoot_ops_prefix
          ((collectBuckets mb.mibSymbols).rows.map Prod.snd) ops2 lbs2
        rw [hR1] at hg3
        dsimp only at hg3
        rcases hR2 : attachUnderRoot ((collectBuckets mb.mibSymbols).tables.map Prod.snd)
            ops3 lbs3 with ⟨ops4, lbs4⟩
        obtain ⟨g4, hg4⟩ := attachUnderRoot_ops_prefix
          ((collectBuckets mb.mibSymbols).tables.map Prod.snd) ops3 lbs3
        rw [hR2] at hg4
        dsimp only at hg4
        rcases hR3 : attachUnderRoot ((collectBuckets mb.mibSymbols).scalars.map Prod.snd)
            ops4 lbs4 with ⟨ops5, lbs5⟩
        obtain ⟨g5, hg5⟩ := attachUnderRoot_ops_prefix
          ((collectBuckets mb.mibSymbols).scalars.map Prod.snd) ops4 lbs4
        rw [hR3] at hg5
        dsimp only at hg5
        simp only [hAI, hAC, hR1, hR2, hR3]
        refine ⟨⟨g1 ++ (g2 ++ (g3 ++ (g4 ++ g5))), ?_⟩, fun _ => trivial⟩
        rw [hg5, hg4, hg3, hg2, hg1]
        simp [List.append_assoc]


/-- Witness for C8: an up-to-date controller is a no-op; a stale one
runs the detach pass and stores the new version. -/
theorem claim8_witness :
    indexMib ⟨6, [([7, 7], [8, 8])]⟩ ⟨[(0, [symScalarA, symInstA])], 6⟩ =
      ⟨⟨6, [([7, 7], [8, 8])]⟩, [], false⟩ ∧
    (∃ rest,
      (indexMib ⟨5, [([7, 7], [8, 8])]⟩
          ⟨[(0, [symScalarA, symInstA])], 6⟩).ops =
        detachOps (collectBuckets [(0, [symScalarA, symInstA])])
          [([7, 7], [8, 8])] ++ rest) ∧
    ((indexMib ⟨5, [([7, 7], [8, 8])]⟩
        ⟨[(0, [symScalarA, symInstA])], 6⟩).raised = false →
      (indexMib ⟨5, [([7, 7], [8, 8])]⟩
        ⟨[(0, [symScalarA, symInstA])], 6⟩).self.lastBuildId = 6) :=
  ⟨(claim8_index_idempotent ⟨6, [([7, 7], [8, 8])]⟩
      ⟨[(0, [symScalarA, symInstA])], 6⟩).1 rfl,
   ((claim8_index_idempotent ⟨5, [([7, 7], [8, 8])]⟩
      ⟨[(0, [symScalarA, symInstA])], 6⟩).2 (by decide)).1,
   ((claim8_index_idempotent ⟨5, [([7, 7], [8, 8])]⟩
      ⟨[(0, [symScalarA, symInstA])], 6⟩).2 (by decide)).2⟩

/-- The module defines a scalar Managed Object with the given name. -/
def definesScalar (syms : List MibSym) (n : List Nat) : Prop :=
  ∃ s ∈ syms, s.variant = .scalar ∧ s.name = n

instance (syms : List MibSym) (n : List Nat) :
    Decidable (definesScalar syms n) := by
  unfold definesScalar
  infer_instance

/-- The last scalar with the given name in one module's symbol list
(the one whose bucket insertion survives within that module). -/
def lastScalarIn (syms : List MibSym) (n : List Nat) : Option MibSym :=
  match syms with
  | [] => none
  | s :: rest =>
    match lastScalarIn rest n with
    | some t => some t
    | none => if s.variant = .scalar ∧ s.name = n then some s else none

/-- The last scalar with the given name across a module list in
iteration order (the insertion that survives in the scalars bucket). -/
def lastScalarMods (ms : List (Nat × List MibSym)) (n : List Nat) :
    Option MibSym :=
  match ms with
  | [] => none
  | m :: rest =>
    match lastScalarMods rest n with
    | some t => some t
    | none => lastScalarIn m.2 n

/-- Dict-assignment lookup: the inserted key maps to the new value and
every other key is unchanged. -/
theorem keyFind_dictInsert {α β : Type} [DecidableEq α] (m : List (α × β))
    (k n : α) (v : β) :
    keyFind (dictInsert m k v) n = if n = k then some v else keyFind m n := by
  induction m with
  | nil =>
    by_cases h : n = k
    · subst h
      simp [dictInsert, keyFind]
    · simp [dictInsert, keyFind, h, Ne.symm h]
  | cons p rest ih =>
    obtain ⟨k', v'⟩ := p
    rw [dictInsert]
    by_cases h1 : k' = k
    · subst h1
      by_cases h2 : n = k'
      · subst h2
        simp [keyFind]
      · simp [keyFind, h2, Ne.symm h2]
    · by_cases h2 : k' = n
      · subst h2
        have h3 : ¬ k' = k := h1
        simp [keyFind, if_neg h1, Ne.symm h3]
      · simp [keyFind, if_neg h1, h2, ih]

/-- One classification step seen through the scalars bucket. -/
theorem keyFind_classifyInsert_scalars (b : Buckets) (s : MibSym)
    (n : List Nat) :
    keyFind (classifyInsert b s).scalars n =
      if s.variant = .scalar ∧ s.name = n then some s
      else keyFind b.scalars n := by
  cases hv : s.variant with
  | scalar =>
    by_cases h : s.name = n
    · simp [classifyInsert, hv, keyFind_dictInsert, h]
    · simp [classifyInsert, hv, keyFind_dictInsert, h, Ne.symm h]
  | table => simp [classifyInsert, hv]
  | row => simp [classifyInsert, hv]
  | col => simp [classifyInsert, hv]
  | inst => simp [classifyInsert, hv]
  | other => simp [classifyInsert, hv]

/-- The scalars bucket after folding a symbol stream resolves a name to
the last scalar of that name in the stream. -/
theorem keyFind_foldl_scalars (stream : List MibSym) (b : Buckets)
    (n : List Nat) :
    keyFind (stream.foldl classifyInsert b).scalars n =
      match lastScalarIn stream n with
      | some t => some t
      | none => keyFind b.scalars n := by
  induction stream generalizing b with
  | nil => rfl
  | cons s rest ih =>
    rw [List.foldl_cons, ih, lastScalarIn]
    cases h : lastScalarIn rest n with
    | some t => rfl
    | none =>
      by_cases hp : s.variant = .scalar ∧ s.name = n
      · rw [if_pos hp, keyFind_classifyInsert_scalars, if_pos hp]
      · rw [if_neg hp, keyFind_classifyInsert_scalars, if_neg hp]

/-- The scalars bucket after the whole classification loop resolves a
name to the last scalar of that name across the module list. -/
theorem keyFind_collect_scalars (ms : List (Nat × List MibSym)) (b : Buckets)
    (n : List Nat) :
    keyFind (((ms.map Prod.snd).flatten).foldl classifyInsert b).scalars n =
      match lastScalarMods ms n with
      | some t => some t
      | none => keyFind b.scalars n := by
  induction ms generalizing b with
  | nil => rfl
  | cons m rest ih =>
    rw [List.map_cons, List.flatten_cons, List.foldl_append, ih,
      lastScalarMods]
    cases h : lastScalarMods rest n with
    | some t => rfl
    | none => rw [keyFind_foldl_scalars]

/-- What the surviving within-module scalar is: a member of the module
with the right variant and name. -/
theorem lastScalarIn_spec (syms : List MibSym) (n : List Nat) (s : MibSym)
    (h : lastScalarIn syms n = some s) :
    s ∈ syms ∧ s.variant = .scalar ∧ s.name = n := by
  induction syms with
  | nil => cases h
  | cons x rest ih =>
    rw [lastScalarIn] at h
    cases hr : lastScalarIn rest n with
    | some t =>
      rw [hr] at h
      cases h
      obtain ⟨hm, hv, hn⟩ := ih hr
      exact ⟨List.mem_cons_of_mem _ hm, hv, hn⟩
    | none =>
      rw [hr] at h
      by_cases hp : x.variant = .scalar ∧ x.name = n
      · rw [if_pos hp] at h
        cases h
        exact ⟨List.mem_cons_self _ _, hp⟩
      · rw [if_neg hp] at h
        cases h

/-- A module has a surviving scalar for a name exactly when it defines
one. -/
theorem lastScalarIn_isSome (syms : List MibSym) (n : List Nat) :
    (lastScalarIn syms n).isSome = true ↔ definesScalar syms n := by
  induction syms with
  | nil =>
    simp [lastScalarIn, definesScalar]
  | cons x rest ih =>
    rw [lastScalarIn]
    constructor
    · intro h
      cases hr : lastScalarIn rest n with
      | some t =>
        obtain ⟨hm, hv, hn⟩ := lastScalarIn_spec rest n t hr
        exact ⟨t, List.mem_cons_of_mem _ hm, hv, hn⟩
      | none =>
        rw [hr] at h
        by_cases hp : x.variant = .scalar ∧ x.name = n
        · exact ⟨x, List.mem_cons_self _ _, hp⟩
        · rw [if_neg hp] at h
          cases h
    · rintro ⟨s, hs, hv, hn⟩
      rcases List.mem_cons.mp hs with h | h
      · subst h
        cases hr : lastScalarIn rest n with
        | some t => rfl
        | none => rw [if_pos ⟨hv, hn⟩]; rfl
      · have : (lastScalarIn rest n).isSome = true :=
          ih.mpr ⟨s, h, hv, hn⟩
        cases hr : lastScalarIn rest n with
        | some t => rfl
        | none => rw [hr] at this; cases this

/-- No module defining the name means no surviving scalar. -/
theorem lastScalarMods_none (ms : List (Nat × List MibSym)) (n : List Nat)
    (h : ∀ p ∈ ms, ¬ definesScalar p.2 n) :
    lastScalarMods ms n = none := by
  induction ms with
  | nil => rfl
  | cons m rest ih =>
    rw [lastScalarMods, ih (fun p hp => h p (List.mem_cons_of_mem _ hp))]
    cases hr : lastScalarIn m.2 n with
    | none => rfl
    | some t =>
      have : definesScalar m.2 n := (lastScalarIn_isSome m.2 n).mp
        (by rw [hr]; rfl)
      exact absurd this (h m (List.mem_cons_self _ _))

/-- Over a module list sorted by descending name with distinct names,
the surviving scalar comes from the module with the least name among
those defining it. -/
theorem lastScalarMods_min (ms : List (Nat × List MibSym)) (n : List Nat)
    (a : Nat) (sa : List MibSym)
    (hsorted : ms.Pairwise fun x y => y.1 ≤ x.1)
    (hnodup : (ms.map Prod.fst).Nodup)
    (hmem : (a, sa) ∈ ms)
    (hdef : definesScalar sa n)
    (hmin : ∀ p ∈ ms, definesScalar p.2 n → a ≤ p.1) :
    lastScalarMods ms n = lastScalarIn sa n := by
  induction ms with
  | nil => cases hmem
  | cons x rest ih =>
    rw [lastScalarMods]
    rcases List.mem_cons.mp hmem with hx | hx
    · have hrest : ∀ p ∈ rest, ¬ definesScalar p.2 n := by
        intro p hp hdp
        have hle : p.1 ≤ x.1 := (List.pairwise_cons.mp hsorted).1 p hp
        have hge : a ≤ p.1 := hmin p (List.mem_cons_of_mem _ hp) hdp
        have hxa : x.1 = a := by rw [← hx]
        have hpa : p.1 = a := le_antisymm (hxa ▸ hle) hge
        have hnd : x.1 ∉ rest.map Prod.fst := by
          rw [List.map_cons] at hnodup
          exact (List.nodup_cons.mp hnodup).1
        exact hnd (by
          rw [hxa, ← hpa]
          exact List.mem_map_of_mem Prod.fst hp)
      rw [lastScalarMods_none rest n hrest, ← hx]
    · have hsome : (lastScalarIn sa n).isSome = true :=
        (lastScalarIn_isSome sa n).mpr hdef
      rw [ih (List.pairwise_cons.mp hsorted).2
        (by rw [List.map_cons] at hnodup; exact (List.nodup_cons.mp hnodup).2)
        hx (fun p hp hdp => hmin p (List.mem_cons_of_mem _ hp) hdp)]
      cases hs : lastScalarIn sa n with
      | some t => rfl
      | none => rw [hs] at hsome; cases hsome

/-- Insertion into the descending sort is a permutation. -/
theorem insertDescMod_perm (m : Nat × List MibSym)
    (l : List (Nat × List MibSym)) : (insertDescMod m l).Perm (m :: l) := by
  induction l with
  | nil => exact List.Perm.refl _
  | cons x xs ih =>
    rw [insertDescMod]
    by_cases h : m.1 < x.1
    · rw [if_pos h]
      exact (ih.cons x).trans (List.Perm.swap m x xs)
    · rw [if_neg h]

/-- The descending sort is a permutation of its input. -/
theorem sortDesc_perm (l : List (Nat × List MibSym)) :
    (sortDesc l).Perm l := by
  induction l with
  | nil => exact List.Perm.refl _
  | cons m ms ih => exact (insertDescMod_perm m (sortDesc ms)).trans (ih.cons m)

/-- Membership in a descending insertion. -/
theorem mem_insertDescMod (y m : Nat × List MibSym)
    (l : List (Nat × List MibSym)) :
    y ∈ insertDescMod m l ↔ y = m ∨ y ∈ l := by
  rw [(insertDescMod_perm m l).mem_iff, List.mem_cons]

/-- Insertion preserves descending sortedness. -/
theorem insertDescMod_sorted (m : Nat × List MibSym)
    (l : List (Nat × List MibSym))
    (hl : l.Pairwise fun x y => y.1 ≤ x.1) :
    (insertDescMod m l).Pairwise fun x y => y.1 ≤ x.1 := by
  induction l with
  | nil => simp [insertDescMod]
  | cons x xs ih =>
    rw [insertDescMod]
    by_cases h : m.1 < x.1
    · rw [if_pos h]
      rw [List.pairwise_cons] at hl
      refine List.pairwise_cons.mpr ⟨?_, ih hl.2⟩
      intro y hy
      rcases (mem_insertDescMod y m xs).mp hy with hy | hy
      · subst hy
        exact le_of_lt h
      · exact hl.1 y hy
    · rw [if_neg h]
      rw [List.pairwise_cons] at hl
      refine List.pairwise_cons.mpr ⟨?_, List.pairwise_cons.mpr hl⟩
      intro y hy
      rcases List.mem_cons.mp hy with hy | hy
      · subst hy
        omega
      · exact le_trans (hl.1 y hy) (by omega)

/-- The descending sort is sorted by descending module name. -/
theorem sortDesc_sorted (l : List (Nat × List MibSym)) :
    (sortDesc l).Pairwise fun x y => y.1 ≤ x.1 := by
  induction l with
  | nil => exact List.Pairwise.nil
  | cons m ms ih => exact insertDescMod_sorted m (sortDesc ms) ih

/-- C7: when several loaded modules (distinct names) define a scalar
Managed Object with the same name, the scalars bucket of the indexed
tree resolves that name to an object of the module whose name sorts
earliest in ascending order: the loop iterates modules in descending
name order, later insertions overwrite earlier ones, so the
ascending-earliest module's object is inserted last and survives. -/
theorem claim7_collision_earliest_module_wins
    (mods : List (Nat × List MibSym)) (n : List Nat)
    (hnodup : (mods.map Prod.fst).Nodup)
    (a : Nat) (sa : List MibSym) (hmem : (a, sa) ∈ mods)
    (hdef : definesScalar sa n)
    (hmin : ∀ p ∈ mods, definesScalar p.2 n → a ≤ p.1) :
    ∃ s, keyFind (collectBuckets mods).scalars n = some s ∧
      s ∈ sa ∧ s.variant = .scalar ∧ s.name = n := by
  have hperm := sortDesc_perm mods
  have hD := lastScalarMods_min (sortDesc mods) n a sa (sortDesc_sorted mods)
    ((hperm.map Prod.fst).nodup_iff.mpr hnodup)
    (hperm.mem_iff.mpr hmem) hdef
    (fun p hp hdp => hmin p (hperm.mem_iff.mp hp) hdp)
  have hL : keyFind (collectBuckets mods).scalars n =
      match lastScalarMods (sortDesc mods) n with
      | some t => some t
      | none => keyFind (Buckets.mk [] [] [] [] []).scalars n :=
    keyFind_collect_scalars (sortDesc mods) (Buckets.mk [] [] [] [] []) n
  rw [hD] at hL
  have hsome : (lastScalarIn sa n).isSome = true :=
    (lastScalarIn_isSome sa n).mpr hdef
  cases hs : lastScalarIn sa n with
  | none => rw [hs] at hsome; cases hsome
  | some s =>
    rw [hs] at hL
    obtain ⟨hm, hv, hn⟩ := lastScalarIn_spec sa n s hs
    exact ⟨s, hL, hm, hv, hn⟩

/-- The scalar X as defined by the ascending-earliest module AAA
(module names are modelled as naturals carrying the lexical order). -/
def symXfromAAA : MibSym := ⟨[1, 3, 6, 1], [], .scalar, 100⟩

/-- The scalar X as defined by the later module ZZZ. -/
def symXfromZZZ : MibSym := ⟨[1, 3, 6, 1], [], .scalar, 200⟩

/-- Witness for C7: modules AAA (0) and ZZZ (1) both define X; the tree
resolves X to AAA's object. -/
theorem claim7_witness :
    ∃ s, keyFind (collectBuckets
        [(0, [symXfromAAA]), (1, [symXfromZZZ])]).scalars [1, 3, 6, 1] =
        some s ∧
      s ∈ [symXfromAAA] ∧ s.variant = .scalar ∧ s.name = [1, 3, 6, 1] :=
  claim7_collision_earliest_module_wins
    [(0, [symXfromAAA]), (1, [symXfromZZZ])] [1, 3, 6, 1] (by decide)
    0 [symXfromAAA] (by decide) (by decide) (by decide)
